import Mathlib

/-!
# Verification of the finance-bot expense core (src/expense_bot.py)

A shallow embedding of the pure logic of `src/expense_bot.py`:

* the entry parser (the per-line body of `handle_expense`, lines 227-280),
  including the message-level block splitting `re.split(r'[\n,;]+', text)`;
* the aggregation pipeline of `generate_report_for_period` (lines 74-103):
  `df.groupby("category")["amount"].sum().sort_values(ascending=False)`;
* the calendar callback handler `handle_calendar` (lines 283-327) together
  with the per-user selection map `user_selections`.

Money is embedded exactly.  A raw amount token parses to an exact decimal
`mantissa / 10 ^ exponent`; `round(x, 2)` (round half to even) turns it
into a whole number of hundredths, so every stored amount is an integer
count of cents, which the embedding uses as the ledger value type
(`amountCents : Nat`; the stored number is `amountCents / 100`).  The
display value of `f"{amt:.2f}"` is recovered as a rational in `displayVal`.
Floating-point representation error of the `REAL` column is outside the
model.  Characters are handled at the code-point level; `str.lower` is
modelled on the ASCII and basic Cyrillic ranges, which covers every
character class the program's regex mentions.
-/

/-! ## Character classes of the regex `^([\d,\.]+)\s*[рруб]*\s+(.+)$` -/

/-- Whitespace as matched by the regex class `\s` (ASCII part) and by
`str.strip`. -/
def isWs (c : Char) : Bool :=
  c = ' ' || c = '\t' || c = '\n' || c = '\r' || c = '\x0b' || c = '\x0c'

/-- Characters of the amount token class `[\d,\.]`. -/
def isAmountChar (c : Char) : Bool :=
  c.isDigit || c = ',' || c = '.'

/-- Characters of the currency-marker class `[рруб]` (the set {р, у, б}). -/
def isMarker (c : Char) : Bool :=
  c = 'р' || c = 'у' || c = 'б'

/-- Delimiters of the block split `re.split(r'[\n,;]+', text)`. -/
def isDelim (c : Char) : Bool :=
  c = '\n' || c = ',' || c = ';'

/-- `str.lower`, modelled on the ASCII letters `A`-`Z` and the Cyrillic
letters `А`-`Я` and `Ё` (all characters the program's inputs use). -/
def pyLower (c : Char) : Char :=
  let n := c.toNat
  if 65 ≤ n && n ≤ 90 then Char.ofNat (n + 32)
  else if 1040 ≤ n && n ≤ 1071 then Char.ofNat (n + 32)
  else if n == 1025 then Char.ofNat 1105
  else c

/-- `str.strip()`: drop whitespace from both ends. -/
def pyStrip (l : List Char) : List Char :=
  ((l.dropWhile isWs).reverse.dropWhile isWs).reverse

/-- `re.split(r'[\n,;]+', text)`: split at every delimiter character.
Runs of delimiters produce empty segments, which the caller filters out
(line 234), so per-character splitting is equivalent to splitting on runs. -/
def splitDelim : List Char → List Char → List (List Char)
  | [], acc => [acc.reverse]
  | c :: rest, acc =>
    if isDelim c then acc.reverse :: splitDelim rest []
    else splitDelim rest (c :: acc)

/-! ## The regex tail `\s*[рруб]*\s+(.+)$`

After the greedy amount token `([\d,\.]+)` is consumed, the engine matches
`\s*` greedily, then `[рруб]*` greedily, then needs `\s+` and a non-empty
remainder.  Backtracking only ever shortens the leading `\s*` run (marker
characters can never be re-matched by `\s+`), and within one choice of the
`\s*` run only the maximal marker run can possibly succeed.  `tryA s a`
plays the attempt in which `\s*` consumed exactly `a` characters;
`matchTailAux` tries `a` from the maximal whitespace run downwards,
exactly in the engine's preference order.  The returned list is capture
group 2. -/

def tryA (s : List Char) (a : Nat) : Option (List Char) :=
  let afterR := (s.drop a).dropWhile isMarker
  let w := (afterR.takeWhile isWs).length
  let L := afterR.length
  if 1 ≤ w && 2 ≤ L then some (afterR.drop (min w (L - 1))) else none

def matchTailAux (s : List Char) : Nat → Option (List Char)
  | 0 => tryA s 0
  | a + 1 =>
    match tryA s (a + 1) with
    | some cat => some cat
    | none => matchTailAux s a

def matchTail (s : List Char) : Option (List Char) :=
  matchTailAux s (s.takeWhile isWs).length

/-! ## Amount conversion -/

/-- Numeric value of a digit string (most significant first). -/
def digitsVal (l : List Char) : Nat :=
  l.foldl (fun acc c => 10 * acc + (c.toNat - 48)) 0

/-- Python `float()` restricted to the strings `replace(',', '.')` can
produce from the amount token: digits with at most one dot and at least
one digit; anything else raises (`none`).  The value is returned as an
exact decimal `(mantissa, exponent)` standing for `mantissa / 10 ^
exponent`. -/
def parseDec? (s : List Char) : Option (Nat × Nat) :=
  if s.all (fun c => c.isDigit || c = '.') &&
      (s.filter (fun c => c = '.')).length ≤ 1 &&
      s.any (fun c => c.isDigit) then
    let intPart := s.takeWhile (fun c => c ≠ '.')
    let fracPart := (s.dropWhile (fun c => c ≠ '.')).drop 1
    some (digitsVal (intPart ++ fracPart), fracPart.length)
  else none

/-- Python `round(x, 2)` on the exact decimal `m / 10 ^ k` (round half to
even), returned as a whole number of hundredths. -/
def roundCents (m k : Nat) : Nat :=
  if k ≤ 2 then m * 10 ^ (2 - k)
  else
    let d := 10 ^ (k - 2)
    let q := m / d
    let r := m % d
    if 2 * r < d then q
    else if d < 2 * r then q + 1
    else if q % 2 = 0 then q else q + 1

/-- `replace(',', '.')` on the amount token. -/
def commaToDot (c : Char) : Char := if c = ',' then '.' else c

/-! ## The entry parser -/

/-- One outcome per entry line.  `badFormat e` corresponds to the message
`«e» — неверный формат`, `badAmount e` to `«e» — ошибка суммы`; `ok`
corresponds to a row inserted into the `expenses` table, its amount
recorded in cents (the stored number is `amountCents / 100`). -/
inductive ParseOutcome where
  | ok (amountCents : Nat) (category : String)
  | badFormat (original : String)
  | badAmount (original : String)
deriving DecidableEq, Repr

/-- The per-entry body of the loop in `handle_expense`
(src/expense_bot.py:245-267): lowercase the entry, match
`^([\d,\.]+)\s*[рруб]*\s+(.+)$`, convert the amount (`,` → `.`, `float`,
reject non-positive — for an unsigned decimal that means value zero —
then `round(·, 2)`) and strip the category.  Entries reaching this loop
contain no newline (the block split removed them), so `.` matching any
character is faithful here. -/
def parseEntry (entry : String) : ParseOutcome :=
  let low := entry.data.map pyLower
  let tok := low.takeWhile isAmountChar
  if tok = [] then .badFormat entry
  else
    match matchTail (low.dropWhile isAmountChar) with
    | none => .badFormat entry
    | some cat =>
      match parseDec? (tok.map commaToDot) with
      | none => .badAmount entry
      | some (m, k) =>
        if m = 0 then .badAmount entry
        else .ok (roundCents m k) ((pyStrip cat).asString)

/-- `handle_expense` (src/expense_bot.py:227-280), pure part: strip the
message, split it into entries on `[\n,;]+`, drop entries empty after
stripping, and parse each remaining entry in order. -/
def handle_expense (text : String) : List ParseOutcome :=
  let entries := ((splitDelim (pyStrip text.data) []).map pyStrip).filter (fun e => e ≠ [])
  entries.map (fun e => parseEntry e.asString)

/-! ## The aggregator

`generate_report_for_period` (src/expense_bot.py:74-103) reads the rows of
one user over the period in `created_at` order and runs
`df.groupby("category")["amount"].sum().sort_values(ascending=False)`.
`groupby` (with its default `sort=True`) indexes the result by the unique
category strings in ascending lexicographic order, summing the amounts of
the rows that carry exactly that category string; `sort_values` then
orders the groups by summed amount descending.  With its default
`kind='quicksort'` (numpy introsort), `sort_values` guarantees only a
weakly-descending permutation of the groups: the relative order of equal
sums is unspecified (introsort is incidentally stable below its
small-array insertion-sort cutoff but not in general).  The relation
`SortValuesDesc` captures exactly that guarantee — it also covers the SQL
`GROUP BY category ORDER BY SUM(amount) DESC` of the month/all-time paths
(lines 166-175 and 197-204), whose tie order SQLite likewise leaves
undefined — and the executable `sortDesc` realizes one admissible output,
used where tie order is irrelevant or where the real sort provably agrees
(tie groups inside the stable small-array regime).  A row is `(category,
amountCents)`; sums of cents are exact. -/

/-- Unique categories in first-occurrence order (`seen` accumulates the
categories already emitted). -/
def firstSeenAux (seen : List String) : List String → List String
  | [] => []
  | c :: rest =>
    if c ∈ seen then firstSeenAux seen rest
    else c :: firstSeenAux (c :: seen) rest

/-- Unique categories of a row list, in first-occurrence order. -/
def firstSeen (cats : List String) : List String := firstSeenAux [] cats

/-- Insertion into a lexicographically ascending list of category keys.
Python compares strings by code points, which is the lexicographic order
on their character lists. -/
def insertAsc (c : String) : List String → List String
  | [] => [c]
  | x :: xs => if c.data ≤ x.data then c :: x :: xs else x :: insertAsc c xs

/-- Ascending lexicographic sort of the unique category keys (the order of
a pandas `groupby(sort=True)` index). -/
def sortAsc : List String → List String
  | [] => []
  | c :: cs => insertAsc c (sortAsc cs)

/-- Total cents of the rows whose category is exactly `c`. -/
def sumFor (rows : List (String × Nat)) (c : String) : Nat :=
  ((rows.filter (fun r => r.1 = c)).map (fun r => r.2)).sum

/-- `df.groupby("category")["amount"].sum()`: one `(category, total)` pair
per distinct category, keys in ascending order. -/
def groupSums (rows : List (String × Nat)) : List (String × Nat) :=
  (sortAsc (firstSeen (rows.map (fun r => r.1)))).map (fun c => (c, sumFor rows c))

/-- Insertion step of the executable sort model: `p` goes in front of the
first element with a strictly smaller total.  Its tie choice (the earlier
element first) is one admissible order, not a pandas guarantee — see
`SortValuesDesc` for the contract the program actually provides. -/
def insertDesc (p : String × Nat) : List (String × Nat) → List (String × Nat)
  | [] => [p]
  | q :: qs => if p.2 ≥ q.2 then p :: q :: qs else q :: insertDesc p qs

/-- Executable model of `.sort_values(ascending=False)`: one admissible
output of `SortValuesDesc` (groups ordered by total weakly descending).
No theorem relies on its particular tie order except the two-element
counterexample, where the real sort runs in numpy introsort's stable
small-array regime and provably produces the same list. -/
def sortDesc : List (String × Nat) → List (String × Nat)
  | [] => []
  | p :: ps => insertDesc p (sortDesc ps)

/-- The contract of `summary.sort_values(ascending=False)` at line 90 with
its default `kind='quicksort'`, and equally of the SQL
`ORDER BY SUM(amount) DESC` at lines 166-175/197-204: the output is a
permutation of the input groups whose totals are weakly descending.
Nothing more is guaranteed — in particular no tie order between equal
totals. -/
def SortValuesDesc (inp out : List (String × Nat)) : Prop :=
  out.Perm inp ∧ out.Pairwise (fun p q => q.2 ≤ p.2)

/-- The summary series of line 90 in the executable model: grouped,
summed, ordered by total weakly descending. -/
def aggregate (rows : List (String × Nat)) : List (String × Nat) :=
  sortDesc (groupSums rows)

/-- `total = summary.sum()` (line 91), in cents. -/
def grandTotal (rows : List (String × Nat)) : Nat :=
  ((aggregate rows).map (fun p => p.2)).sum

/-- The numeric value printed by `f"{amt:.2f}".rstrip('0').rstrip('.')`
for an exact-cents amount: trimming trailing zeros does not change the
value, so the displayed number is exactly `cents / 100`. -/
def displayVal (cents : Nat) : Rat := (cents : Rat) / 100

/-- Result of `generate_report_for_period` once the rows are fetched. -/
inductive ReportOutcome where
  | noData
  | report (summary : List (String × Nat)) (totalCents : Nat) (chart : List (String × Nat))
deriving DecidableEq, Repr

/-- `generate_report_for_period` (src/expense_bot.py:74-103) after the
query: with no rows it sends only the textual "За указанный период
расходов нет." notice and returns; otherwise it sends the per-category
text plus total and hands the summary to `generate_chart`. -/
def generate_report_for_period (rows : List (String × Nat)) : ReportOutcome :=
  if rows = [] then .noData
  else .report (aggregate rows) (grandTotal rows) (aggregate rows)

/-! ## The calendar state machine

`handle_calendar` (src/expense_bot.py:283-327) dispatches on the callback
data `cal_<kind>_...`; `user_selections` (line 29) is the per-chat map
holding the picked start date.  Dates compare lexicographically by
`(year, month, day)`, as Python `datetime.date` does. -/

/-- A `datetime.date` value `(year, month, day)`. -/
structure CalDate where
  year : Int
  month : Int
  day : Int
deriving DecidableEq, Repr

/-- Python `date` comparison: lexicographic on `(year, month, day)`. -/
def dateLtB (a b : CalDate) : Bool :=
  a.year < b.year ||
    (a.year = b.year && (a.month < b.month || (a.month = b.month && a.day < b.day)))

/-- `date(year, month, 1) - relativedelta(months=1)` (line 291). -/
def prevMonth (year month : Int) : Int × Int :=
  if month = 1 then (year - 1, 12) else (year, month - 1)

/-- `date(year, month, 1) + relativedelta(months=1)` (line 297). -/
def nextMonth (year month : Int) : Int × Int :=
  if month = 12 then (year + 1, 1) else (year, month + 1)

/-- The `mode` string carried in the callback data: `"start"` or `"end"`. -/
inductive Mode where
  | mstart
  | mend
deriving DecidableEq, Repr

/-- The parsed `cal_*` callback actions of `handle_calendar`'s branches. -/
inductive CalAction where
  | prev (year month : Int) (mode : Mode)
  | next (year month : Int) (mode : Mode)
  | day (year month dayN : Int) (mode : Mode)
  | single (year month dayN : Int)
  | ignore
deriving DecidableEq, Repr

/-- The outward effect of one `handle_calendar` invocation. -/
inductive CalEffect where
  /-- a fresh calendar is sent for this anchor date and mode -/
  | sendCalendar (target : CalDate) (mode : Mode)
  /-- the message is edited to `Ошибка: начальная дата не выбрана.` -/
  | editError
  /-- the inline alert `Конец не может быть раньше начала!` -/
  | alertError
  /-- `generate_report_for_period(chat_id, startD, endD)` is dispatched -/
  | report (startD endD : CalDate)
  /-- nothing happens -/
  | noop
deriving DecidableEq, Repr

/-- The `user_selections` map: per chat id, the picked start date (the
dict value `{"start": selected}`). -/
def Selections := List (Int × CalDate)

/-- Reading `user_selections[chat_id]["start"]` / the `in` test. -/
def lookupSel (sel : List (Int × CalDate)) (chatId : Int) : Option CalDate :=
  match sel with
  | [] => none
  | p :: rest => if p.1 = chatId then some p.2 else lookupSel rest chatId

/-- `user_selections.pop(chat_id, None)`. -/
def eraseSel (sel : List (Int × CalDate)) (chatId : Int) : List (Int × CalDate) :=
  sel.filter (fun p => p.1 ≠ chatId)

/-- `user_selections[chat_id] = {"start": selected}`. -/
def insertSel (sel : List (Int × CalDate)) (chatId : Int) (d : CalDate) :
    List (Int × CalDate) :=
  (chatId, d) :: eraseSel sel chatId

/-- `handle_calendar` (src/expense_bot.py:283-327): the new state of
`user_selections` and the produced effect, for each callback action. -/
def handle_calendar (sel : List (Int × CalDate)) (chatId : Int) (a : CalAction) :
    List (Int × CalDate) × CalEffect :=
  match a with
  | .prev y m mode =>
    (sel, .sendCalendar ⟨(prevMonth y m).1, (prevMonth y m).2, 1⟩ mode)
  | .next y m mode =>
    (sel, .sendCalendar ⟨(nextMonth y m).1, (nextMonth y m).2, 1⟩ mode)
  | .day y m d mode =>
    let selected : CalDate := ⟨y, m, d⟩
    match mode with
    | .mstart => (insertSel sel chatId selected, .sendCalendar selected .mend)
    | .mend =>
      match lookupSel sel chatId with
      | none => (sel, .editError)
      | some start =>
        if dateLtB selected start then (sel, .alertError)
        else (eraseSel sel chatId, .report start selected)
  | .single y m d => (sel, .report ⟨y, m, d⟩ ⟨y, m, d⟩)
  | .ignore => (sel, .noop)

/-! ## Helper lemmas: strip and regex-tail structure -/

theorem head?_dropWhile_false {α} (p : α → Bool) (l : List α) (x : α)
    (h : (l.dropWhile p).head? = some x) : p x = false := by
  induction l with
  | nil => simp [List.dropWhile] at h
  | cons a t ih =>
    rw [List.dropWhile_cons] at h
    split at h
    · exact ih h
    · simp_all

theorem getLast?_dropWhile_ne {α} (p : α → Bool) (l : List α)
    (h : l.dropWhile p ≠ []) : (l.dropWhile p).getLast? = l.getLast? := by
  induction l with
  | nil => simp [List.dropWhile] at h
  | cons a t ih =>
    rw [List.dropWhile_cons]
    rw [List.dropWhile_cons] at h
    split at h
    · rename_i hp
      have ht : t ≠ [] := by
        intro he
        exact h (by simp [he, List.dropWhile, hp])
      rw [if_pos hp, ih h]
      cases t with
      | nil => exact absurd rfl ht
      | cons b t2 => exact (List.getLast?_cons_cons).symm
    · rw [if_neg (by assumption)]

/-- The first character of a stripped list is never whitespace. -/
theorem pyStrip_head_not_ws (l : List Char) (x : Char)
    (h : (pyStrip l).head? = some x) : isWs x = false := by
  unfold pyStrip at h
  rw [List.head?_reverse] at h
  have hne : (l.dropWhile isWs).reverse.dropWhile isWs ≠ [] := by
    intro he
    rw [he] at h
    simp at h
  rw [getLast?_dropWhile_ne _ _ hne, List.getLast?_reverse] at h
  exact head?_dropWhile_false _ _ _ h

/-- The last character of a stripped list is never whitespace. -/
theorem pyStrip_last_not_ws (l : List Char) (x : Char)
    (h : (pyStrip l).getLast? = some x) : isWs x = false := by
  unfold pyStrip at h
  rw [List.getLast?_reverse] at h
  exact head?_dropWhile_false _ _ _ h

/-- A successful tail match returns a suffix of its input. -/
theorem tryA_suffix {s : List Char} {a : Nat} {cat : List Char}
    (h : tryA s a = some cat) : cat <:+ s := by
  unfold tryA at h
  dsimp only at h
  split at h
  · cases h
    exact ((List.drop_suffix _ _).trans ((List.dropWhile_suffix _).trans
      (List.drop_suffix _ _)))
  · cases h

theorem matchTailAux_suffix {s : List Char} {cat : List Char} :
    ∀ n, matchTailAux s n = some cat → cat <:+ s := by
  intro n
  induction n with
  | zero => exact fun h => tryA_suffix h
  | succ a ih =>
    intro h
    rw [matchTailAux] at h
    split at h
    · rename_i heq
      cases h
      exact tryA_suffix heq
    · exact ih h

theorem matchTail_suffix {s cat : List Char} (h : matchTail s = some cat) :
    cat <:+ s :=
  matchTailAux_suffix _ h

/-! ## Helper lemmas: membership through the aggregation pipeline -/

theorem mem_insertDesc {p q : String × Nat} {l : List (String × Nat)} :
    q ∈ insertDesc p l ↔ q = p ∨ q ∈ l := by
  induction l with
  | nil => simp [insertDesc]
  | cons r t ih =>
    unfold insertDesc
    split
    · simp [or_comm, or_assoc, or_left_comm]
    · simp [ih]
      tauto

theorem mem_sortDesc {q : String × Nat} {l : List (String × Nat)} :
    q ∈ sortDesc l ↔ q ∈ l := by
  induction l with
  | nil => simp [sortDesc]
  | cons r t ih => simp [sortDesc, mem_insertDesc, ih]

theorem mem_insertAsc {c x : String} {l : List String} :
    x ∈ insertAsc c l ↔ x = c ∨ x ∈ l := by
  induction l with
  | nil => simp [insertAsc]
  | cons r t ih =>
    unfold insertAsc
    split
    · simp [or_comm, or_assoc, or_left_comm]
    · simp [ih]
      tauto

theorem mem_sortAsc {x : String} {l : List String} :
    x ∈ sortAsc l ↔ x ∈ l := by
  induction l with
  | nil => simp [sortAsc]
  | cons r t ih => simp [sortAsc, mem_insertAsc, ih]

theorem mem_firstSeenAux {x : String} :
    ∀ {seen l : List String}, x ∈ firstSeenAux seen l → x ∈ l := by
  intro seen l
  induction l generalizing seen with
  | nil => simp [firstSeenAux]
  | cons c rest ih =>
    unfold firstSeenAux
    split
    · exact fun h => List.mem_cons_of_mem _ (ih h)
    · intro h
      rcases List.mem_cons.mp h with h | h
      · exact h ▸ List.mem_cons_self _ _
      · exact List.mem_cons_of_mem _ (ih h)

theorem mem_firstSeen {x : String} {l : List String} (h : x ∈ firstSeen l) :
    x ∈ l :=
  mem_firstSeenAux h

/-- Every group is a category that occurs in the rows, paired with the
exact-string-equality group total. -/
theorem mem_groupSums {rows : List (String × Nat)} {p : String × Nat}
    (h : p ∈ groupSums rows) :
    p.1 ∈ rows.map (fun r => r.1) ∧ p.2 = sumFor rows p.1 := by
  obtain ⟨c, hc, hcp⟩ := List.mem_map.mp h
  cases hcp
  exact ⟨mem_firstSeen (mem_sortAsc.mp hc), rfl⟩

/-- Every element of an aggregation summary is a category that occurs in
the rows, paired with the exact-string-equality group total. -/
theorem mem_aggregate {rows : List (String × Nat)} {p : String × Nat}
    (h : p ∈ aggregate rows) :
    p.1 ∈ rows.map (fun r => r.1) ∧ p.2 = sumFor rows p.1 :=
  mem_groupSums (mem_sortDesc.mp h)

/-! ## Helper lemmas: non-emptiness through the aggregation pipeline -/

theorem firstSeen_ne_nil {l : List String} (h : l ≠ []) : firstSeen l ≠ [] := by
  cases l with
  | nil => exact absurd rfl h
  | cons c rest => simp [firstSeen, firstSeenAux]

theorem insertAsc_ne_nil {c : String} {l : List String} : insertAsc c l ≠ [] := by
  cases l with
  | nil => simp [insertAsc]
  | cons x xs =>
    unfold insertAsc
    split <;> simp

theorem sortAsc_ne_nil {l : List String} (h : l ≠ []) : sortAsc l ≠ [] := by
  cases l with
  | nil => exact absurd rfl h
  | cons c cs => simpa [sortAsc] using insertAsc_ne_nil

theorem insertDesc_ne_nil {p : String × Nat} {l : List (String × Nat)} :
    insertDesc p l ≠ [] := by
  cases l with
  | nil => simp [insertDesc]
  | cons q qs =>
    unfold insertDesc
    split <;> simp

theorem sortDesc_ne_nil {l : List (String × Nat)} (h : l ≠ []) :
    sortDesc l ≠ [] := by
  cases l with
  | nil => exact absurd rfl h
  | cons p ps => simpa [sortDesc] using insertDesc_ne_nil

theorem aggregate_ne_nil {rows : List (String × Nat)} (h : rows ≠ []) :
    aggregate rows ≠ [] := by
  apply sortDesc_ne_nil
  unfold groupSums
  simp only [ne_eq, List.map_eq_nil_iff]
  apply sortAsc_ne_nil
  apply firstSeen_ne_nil
  simpa using h

/-! ## Helper lemmas: no duplicate categories after grouping -/

theorem not_mem_seen_of_mem_firstSeenAux {x : String} :
    ∀ {seen l : List String}, x ∈ firstSeenAux seen l → x ∉ seen := by
  intro seen l
  induction l generalizing seen with
  | nil => simp [firstSeenAux]
  | cons c rest ih =>
    unfold firstSeenAux
    split
    · exact fun h => ih h
    · intro h
      rcases List.mem_cons.mp h with rfl | h
      · assumption
      · have := ih h
        exact fun hx => this (List.mem_cons_of_mem _ hx)

theorem nodup_firstSeenAux : ∀ {seen l : List String},
    (firstSeenAux seen l).Nodup := by
  intro seen l
  induction l generalizing seen with
  | nil => simp [firstSeenAux]
  | cons c rest ih =>
    unfold firstSeenAux
    split
    · exact ih
    · refine List.nodup_cons.mpr ⟨?_, ih⟩
      intro hc
      exact not_mem_seen_of_mem_firstSeenAux hc (List.mem_cons_self _ _)

theorem nodup_firstSeen {l : List String} : (firstSeen l).Nodup :=
  nodup_firstSeenAux

/-! ## Helper lemmas: order of the aggregation summary -/

theorem pairwise_insertAsc {c : String} {l : List String}
    (hl : l.Pairwise (fun a b => a.data < b.data)) (hc : c ∉ l) :
    (insertAsc c l).Pairwise (fun a b => a.data < b.data) := by
  induction l with
  | nil => simp [insertAsc]
  | cons x xs ih =>
    rcases List.pairwise_cons.mp hl with ⟨hx, hxs⟩
    unfold insertAsc
    split
    · rename_i hle
      have hne : c.data ≠ x.data := by
        intro hd
        exact hc (by
          have : c = x := String.toList_inj.mp hd
          exact this ▸ List.mem_cons_self _ _)
      have hlt : c.data < x.data := lt_of_le_of_ne hle hne
      refine List.pairwise_cons.mpr ⟨?_, hl⟩
      intro y hy
      rcases List.mem_cons.mp hy with rfl | hy
      · exact hlt
      · exact hlt.trans (hx y hy)
    · rename_i hnle
      have hxc : x.data < c.data := not_le.mp hnle
      refine List.pairwise_cons.mpr
        ⟨?_, ih hxs (fun hm => hc (List.mem_cons_of_mem _ hm))⟩
      intro y hy
      rcases mem_insertAsc.mp hy with rfl | hy
      · exact hxc
      · exact hx y hy

theorem pairwise_sortAsc {l : List String} (h : l.Nodup) :
    (sortAsc l).Pairwise (fun a b => a.data < b.data) := by
  induction l with
  | nil => simp [sortAsc]
  | cons c cs ih =>
    rcases List.nodup_cons.mp h with ⟨hc, hcs⟩
    exact pairwise_insertAsc (ih hcs) (fun hm => hc (mem_sortAsc.mp hm))

/-- The category keys of the grouped summary are distinct: `groupby`
produces one group per distinct category string. -/
theorem nodup_keys_groupSums (rows : List (String × Nat)) :
    ((groupSums rows).map (fun p => p.1)).Nodup := by
  unfold groupSums
  rw [List.map_map]
  rw [show ((fun p : String × Nat => p.1) ∘ fun c => (c, sumFor rows c)) =
    fun c => c from rfl]
  rw [List.map_id']
  exact (pairwise_sortAsc nodup_firstSeen).imp
    (fun hlt he => absurd (he ▸ hlt) (lt_irrefl _))

theorem insertDesc_perm (p : String × Nat) (l : List (String × Nat)) :
    (insertDesc p l).Perm (p :: l) := by
  induction l with
  | nil => exact List.Perm.refl _
  | cons q qs ih =>
    unfold insertDesc
    split
    · exact List.Perm.refl _
    · exact (ih.cons q).trans (List.Perm.swap p q qs)

theorem sortDesc_perm (l : List (String × Nat)) : (sortDesc l).Perm l := by
  induction l with
  | nil => exact List.Perm.refl _
  | cons p ps ih => exact (insertDesc_perm p (sortDesc ps)).trans (ih.cons p)

theorem pairwise_desc_insertDesc (p : String × Nat) {l : List (String × Nat)}
    (hl : l.Pairwise (fun p q => q.2 ≤ p.2)) :
    (insertDesc p l).Pairwise (fun p q => q.2 ≤ p.2) := by
  induction l with
  | nil => simp [insertDesc]
  | cons q qs ih =>
    rcases List.pairwise_cons.mp hl with ⟨hq, hqs⟩
    unfold insertDesc
    split
    · rename_i hge
      refine List.pairwise_cons.mpr ⟨?_, hl⟩
      intro z hz
      rcases List.mem_cons.mp hz with rfl | hz
      · exact hge
      · exact le_trans (hq z hz) hge
    · rename_i hnge
      have hpq : p.2 < q.2 := not_le.mp hnge
      refine List.pairwise_cons.mpr ⟨?_, ih hqs⟩
      intro z hz
      rcases mem_insertDesc.mp hz with rfl | hz
      · exact le_of_lt hpq
      · exact hq z hz

theorem pairwise_desc_sortDesc (l : List (String × Nat)) :
    (sortDesc l).Pairwise (fun p q => q.2 ≤ p.2) := by
  induction l with
  | nil => simp [sortDesc]
  | cons p ps ih => exact pairwise_desc_insertDesc p ih

/-- The executable sort meets the `sort_values` contract: it returns a
weakly-descending permutation of its input. -/
theorem sortDesc_sortValuesDesc (l : List (String × Nat)) :
    SortValuesDesc l (sortDesc l) :=
  ⟨sortDesc_perm l, pairwise_desc_sortDesc l⟩

/-! ## Helper lemmas: totals are preserved by sorting and grouping -/

theorem sum_snd_insertDesc (p : String × Nat) (l : List (String × Nat)) :
    ((insertDesc p l).map (fun q => q.2)).sum = p.2 + (l.map (fun q => q.2)).sum := by
  induction l with
  | nil => simp [insertDesc]
  | cons q qs ih =>
    unfold insertDesc
    split
    · simp
    · simp [ih]
      omega

theorem sum_snd_sortDesc (l : List (String × Nat)) :
    ((sortDesc l).map (fun q => q.2)).sum = (l.map (fun q => q.2)).sum := by
  induction l with
  | nil => rfl
  | cons p ps ih => simp [sortDesc, sum_snd_insertDesc, ih]

theorem sum_f_insertAsc (f : String → Nat) (c : String) (l : List String) :
    ((insertAsc c l).map f).sum = f c + (l.map f).sum := by
  induction l with
  | nil => simp [insertAsc]
  | cons x xs ih =>
    unfold insertAsc
    split
    · simp
    · simp [ih]
      omega

theorem sum_f_sortAsc (f : String → Nat) (l : List String) :
    ((sortAsc l).map f).sum = (l.map f).sum := by
  induction l with
  | nil => rfl
  | cons c cs ih => simp [sortAsc, sum_f_insertAsc, ih]

theorem sum_filter_partition (p : String × Nat → Bool)
    (l : List (String × Nat)) :
    ((l.filter p).map (fun r => r.2)).sum +
      ((l.filter (fun r => !p r)).map (fun r => r.2)).sum =
      (l.map (fun r => r.2)).sum := by
  induction l with
  | nil => rfl
  | cons r t ih =>
    by_cases h : p r = true
    · simp [List.filter_cons, h, List.sum_cons]
      omega
    · simp [List.filter_cons, h, List.sum_cons]
      omega

theorem mem_seen_or_firstSeenAux {x : String} :
    ∀ (seen l : List String), x ∈ l → x ∈ seen ∨ x ∈ firstSeenAux seen l := by
  intro seen l
  induction l generalizing seen with
  | nil => simp
  | cons c rest ih =>
    intro h
    unfold firstSeenAux
    split
    · rename_i hcs
      rcases List.mem_cons.mp h with rfl | h
      · exact Or.inl hcs
      · exact ih seen h
    · rcases List.mem_cons.mp h with rfl | h
      · exact Or.inr (List.mem_cons_self _ _)
      · rcases ih (c :: seen) h with hx | hx
        · rcases List.mem_cons.mp hx with rfl | hx
          · exact Or.inr (List.mem_cons_self _ _)
          · exact Or.inl hx
        · exact Or.inr (List.mem_cons_of_mem _ hx)

theorem mem_firstSeen_of_mem {x : String} {l : List String} (h : x ∈ l) :
    x ∈ firstSeen l := by
  rcases mem_seen_or_firstSeenAux [] l h with h0 | h1
  · simp at h0
  · exact h1

theorem sum_sumFor_of_cover :
    ∀ (cs : List String) (rows : List (String × Nat)), cs.Nodup →
      (∀ r ∈ rows, r.1 ∈ cs) →
      (cs.map (sumFor rows)).sum = (rows.map (fun r => r.2)).sum := by
  intro cs
  induction cs with
  | nil =>
    intro rows _ hcov
    cases rows with
    | nil => rfl
    | cons r t => exact absurd (hcov r (List.mem_cons_self _ _)) (by simp)
  | cons c cs' ih =>
    intro rows hnd hcov
    rcases List.nodup_cons.mp hnd with ⟨hc, hnd'⟩
    have key : ∀ c' ∈ cs',
        sumFor rows c' = sumFor (rows.filter (fun r => r.1 ≠ c)) c' := by
      intro c' hc'
      unfold sumFor
      have hf : (rows.filter (fun r => r.1 ≠ c)).filter (fun r => r.1 = c') =
          rows.filter (fun r => r.1 = c') := by
        rw [List.filter_filter]
        apply List.filter_congr
        intro r _
        by_cases h1 : r.1 = c'
        · have h2 : r.1 ≠ c := by
            rw [h1]
            intro he
            exact hc (he ▸ hc')
          simp [h1, h2]
          intro he
          exact hc (he ▸ hc')
        · simp [h1]
      rw [hf]
    have hcov' : ∀ r ∈ rows.filter (fun r => r.1 ≠ c), r.1 ∈ cs' := by
      intro r hr
      rcases List.mem_filter.mp hr with ⟨hrm, hrc⟩
      rcases List.mem_cons.mp (hcov r hrm) with he | hm
      · exact absurd he (by simpa using hrc)
      · exact hm
    have hfilter : rows.filter (fun r => r.1 ≠ c) =
        rows.filter (fun r => !(decide (r.1 = c))) := by
      refine List.filter_congr ?_
      intro r _
      simp
    calc ((c :: cs').map (sumFor rows)).sum
        = sumFor rows c + (cs'.map (sumFor rows)).sum := by
          rw [List.map_cons, List.sum_cons]
      _ = sumFor rows c +
            (cs'.map (sumFor (rows.filter (fun r => r.1 ≠ c)))).sum := by
          rw [List.map_congr_left key]
      _ = sumFor rows c +
            ((rows.filter (fun r => r.1 ≠ c)).map (fun r => r.2)).sum := by
          rw [ih _ hnd' hcov']
      _ = (rows.map (fun r => r.2)).sum := by
          rw [hfilter]
          exact sum_filter_partition (fun r => decide (r.1 = c)) rows

/-- The grand total of a summary equals the sum of all row amounts: the
grouping pass partitions the rows. -/
theorem grandTotal_eq_sum_rows (rows : List (String × Nat)) :
    grandTotal rows = (rows.map (fun r => r.2)).sum := by
  unfold grandTotal aggregate
  rw [sum_snd_sortDesc]
  unfold groupSums
  rw [List.map_map]
  rw [show ((fun p : String × Nat => p.2) ∘ fun c => (c, sumFor rows c)) =
    sumFor rows from rfl]
  rw [sum_f_sortAsc]
  exact sum_sumFor_of_cover _ rows nodup_firstSeen
    (fun r hr => mem_firstSeen_of_mem (List.mem_map_of_mem _ hr))

theorem sum_displayVal (l : List Nat) :
    (l.map (fun c => displayVal c)).sum = displayVal l.sum := by
  induction l with
  | nil => simp [displayVal]
  | cons a t ih =>
    rw [List.map_cons, List.sum_cons, ih, List.sum_cons]
    unfold displayVal
    push_cast
    rw [add_div]

/-! ## Helper lemmas: the selection map -/

theorem lookupSel_eraseSel (sel : List (Int × CalDate)) (chatId : Int) :
    lookupSel (eraseSel sel chatId) chatId = none := by
  induction sel with
  | nil => rfl
  | cons p rest ih =>
    by_cases h : p.1 = chatId
    · simpa [eraseSel, List.filter_cons, h] using ih
    · simpa [eraseSel, List.filter_cons, h, lookupSel] using ih

theorem dateLtB_irrefl (a : CalDate) : dateLtB a a = false := by
  simp [dateLtB]

/-! ## Claim theorems: the range-selection state machine -/

/-- C2: in the `AwaitingEnd` state with start date `S`, picking an end
date strictly before `S` leaves the per-user selection map completely
unchanged and raises only the inline validation alert, while picking
`end = S` dispatches the report for the single-day range `(S, S)` and
removes the per-user state. -/
theorem c2_end_date_monotonic (sel : List (Int × CalDate)) (chatId y m d : Int)
    (S : CalDate) (hS : lookupSel sel chatId = some S) :
    (dateLtB ⟨y, m, d⟩ S = true →
      handle_calendar sel chatId (.day y m d .mend) = (sel, .alertError)) ∧
    (CalDate.mk y m d = S →
      handle_calendar sel chatId (.day y m d .mend) =
        (eraseSel sel chatId, .report S S) ∧
      lookupSel (eraseSel sel chatId) chatId = none) := by
  constructor
  · intro hlt
    simp [handle_calendar, hS, hlt]
  · intro heq
    refine ⟨?_, lookupSel_eraseSel sel chatId⟩
    simp [handle_calendar, hS, ← heq, dateLtB_irrefl]

/-- Witness for C2 at a concrete state: start date 2024-03-10, end pick
2024-03-05 is rejected with the map untouched; end pick 2024-03-10
succeeds as a single-day range and empties the map. -/
theorem c2_end_date_monotonic_witness :
    (handle_calendar [(7, ⟨2024, 3, 10⟩)] 7 (.day 2024 3 5 .mend) =
      ([(7, ⟨2024, 3, 10⟩)], .alertError)) ∧
    (handle_calendar [(7, ⟨2024, 3, 10⟩)] 7 (.day 2024 3 10 .mend) =
      (eraseSel [(7, ⟨2024, 3, 10⟩)] 7, .report ⟨2024, 3, 10⟩ ⟨2024, 3, 10⟩) ∧
     lookupSel (eraseSel [(7, ⟨2024, 3, 10⟩)] 7) 7 = none) :=
  ⟨(c2_end_date_monotonic [(7, ⟨2024, 3, 10⟩)] 7 2024 3 5 ⟨2024, 3, 10⟩
      (by decide)).1 (by decide),
   (c2_end_date_monotonic [(7, ⟨2024, 3, 10⟩)] 7 2024 3 10 ⟨2024, 3, 10⟩
      (by decide)).2 rfl⟩

/-- C6 counterexample: with no live selection state, a month navigation
re-renders the calendar and a start-mode day pick silently creates a
selection — neither reports the "no start date selected" error the claim
asserts for every navigation or day-pick action. -/
theorem c6_counterexample :
    handle_calendar [] 7 (.prev 2024 3 .mstart) =
      ([], .sendCalendar ⟨2024, 2, 1⟩ .mstart) ∧
    handle_calendar [] 7 (.day 2024 3 5 .mstart) =
      ([(7, ⟨2024, 3, 5⟩)], .sendCalendar ⟨2024, 3, 5⟩ .mend) := by decide

/-- C6 amended: with no live selection state, only an end-mode day pick
reports the "Ошибка: начальная дата не выбрана." error (leaving state
unchanged); month navigation re-renders the calendar without touching
state, and a start-mode day pick silently creates a fresh selection.
Single-day confirmation stays self-contained. -/
theorem c6_stale_actions (sel : List (Int × CalDate)) (chatId y m d : Int)
    (mode : Mode) (h : lookupSel sel chatId = none) :
    handle_calendar sel chatId (.day y m d .mend) = (sel, .editError) ∧
    (handle_calendar sel chatId (.prev y m mode)).1 = sel ∧
    (handle_calendar sel chatId (.next y m mode)).1 = sel ∧
    (handle_calendar sel chatId (.prev y m mode)).2 =
      .sendCalendar ⟨(prevMonth y m).1, (prevMonth y m).2, 1⟩ mode ∧
    (handle_calendar sel chatId (.next y m mode)).2 =
      .sendCalendar ⟨(nextMonth y m).1, (nextMonth y m).2, 1⟩ mode ∧
    handle_calendar sel chatId (.day y m d .mstart) =
      (insertSel sel chatId ⟨y, m, d⟩, .sendCalendar ⟨y, m, d⟩ .mend) := by
  refine ⟨?_, rfl, rfl, rfl, rfl, rfl⟩
  simp [handle_calendar, h]

/-- Witness for C6 (amended) at the empty selection map. -/
theorem c6_stale_actions_witness :
    handle_calendar [] 7 (.day 2024 3 5 .mend) = ([], .editError) :=
  (c6_stale_actions [] 7 2024 3 5 .mstart (by decide)).1

/-- C7: previous-then-next (and next-then-previous) month navigation
returns to the original anchor month, January/December roll over the year
boundary, and navigation never touches the selection state (hence never
the start date). -/
theorem c7_month_nav_roundtrip (y m : Int) (h1 : 1 ≤ m) (h2 : m ≤ 12) :
    nextMonth (prevMonth y m).1 (prevMonth y m).2 = (y, m) ∧
    prevMonth (nextMonth y m).1 (nextMonth y m).2 = (y, m) ∧
    prevMonth y 1 = (y - 1, 12) ∧
    nextMonth y 12 = (y + 1, 1) ∧
    (∀ (sel : List (Int × CalDate)) (chatId : Int) (mode : Mode),
      (handle_calendar sel chatId (.prev y m mode)).1 = sel ∧
      (handle_calendar sel chatId (.next y m mode)).1 = sel) := by
  refine ⟨?_, ?_, ?_, ?_, fun sel chatId mode => ⟨rfl, rfl⟩⟩
  · by_cases hm : m = 1
    · subst hm
      simp [prevMonth, nextMonth]
    · have h12 : ¬(m - 1 = 12) := by omega
      simp [prevMonth, nextMonth, hm, h12]
  · by_cases hm : m = 12
    · subst hm
      simp [prevMonth, nextMonth]
    · have h1' : ¬(m + 1 = 1) := by omega
      simp [prevMonth, nextMonth, hm, h1']
  · simp [prevMonth]
  · simp [nextMonth]

/-- Witness for C7 at the January year boundary. -/
theorem c7_month_nav_roundtrip_witness :
    nextMonth (prevMonth 2024 1).1 (prevMonth 2024 1).2 = (2024, 1) ∧
    prevMonth 2024 1 = (2023, 12) :=
  ⟨(c7_month_nav_roundtrip 2024 1 (by norm_num) (by norm_num)).1,
   (c7_month_nav_roundtrip 2024 1 (by norm_num) (by norm_num)).2.2.1⟩

/-- C10: single-day confirmation dispatches the `(day, day)` report
without reading or writing the selection map; an in-flight selection
survives it unchanged and remains live. -/
theorem c10_single_day_frame (sel : List (Int × CalDate)) (chatId y m d : Int) :
    handle_calendar sel chatId (.single y m d) =
      (sel, .report ⟨y, m, d⟩ ⟨y, m, d⟩) ∧
    (∀ S, lookupSel sel chatId = some S →
      lookupSel (handle_calendar sel chatId (.single y m d)).1 chatId = some S) :=
  ⟨rfl, fun _ hS => hS⟩

/-- Witness for C10: a live selection for chat 7 survives a single-day
confirmation untouched. -/
theorem c10_single_day_frame_witness :
    handle_calendar [(7, ⟨2024, 3, 10⟩)] 7 (.single 2024 4 2) =
      ([(7, ⟨2024, 3, 10⟩)], .report ⟨2024, 4, 2⟩ ⟨2024, 4, 2⟩) ∧
    lookupSel (handle_calendar [(7, ⟨2024, 3, 10⟩)] 7 (.single 2024 4 2)).1 7 =
      some ⟨2024, 3, 10⟩ :=
  ⟨(c10_single_day_frame [(7, ⟨2024, 3, 10⟩)] 7 2024 4 2).1,
   (c10_single_day_frame [(7, ⟨2024, 3, 10⟩)] 7 2024 4 2).2 ⟨2024, 3, 10⟩ (by decide)⟩

/-! ## Claim theorems: the entry parser -/

/-- C1 counterexample: the message `"45,50 еда"` submitted alone does not
yield the single successful outcome with amount 45.50 (4550 cents) and
category `"еда"` the claim asserts: the block split consumes the comma
first. -/
theorem c1_counterexample :
    handle_expense "45,50 еда" ≠ [ParseOutcome.ok 4550 "еда"] := by decide

/-- C1 amended: the block split cuts `"45,50 еда"` at the comma into
`"45"` (no category follows, so a bad-format error) and `"50 еда"` (one
success with amount 50.00 and category `"еда"`); the comma-normalized
amount 45.50 with trimmed category `"еда"` only arises when the line
reaches the per-entry matcher with its comma intact, which the
message-level pipeline never allows. -/
theorem c1_comma_amount_split :
    handle_expense "45,50 еда" = [.badFormat "45", .ok 5000 "еда"] ∧
    parseEntry "45,50 еда" = .ok 4550 "еда" := by decide

/-- C4 counterexample: the line `"-5р еда"` produces the "bad format"
error (`неверный формат`), not the "bad amount" error (`ошибка суммы`)
the claim asserts: the minus sign already fails the structural match
`^([\d,\.]+)...`, so the amount never reaches numeric validation. -/
theorem c4_counterexample :
    parseEntry "-5р еда" = .badFormat "-5р еда" ∧
    parseEntry "-5р еда" ≠ .badAmount "-5р еда" := by decide

/-- C4 amended: `"-5р еда"` yields exactly one ParseError, with reason
"bad format" (a negative amount cannot pass the structural match); any
line that does match structurally but whose numeric amount value is zero
or negative yields the "bad amount" error. -/
theorem c4_nonpositive_amount :
    parseEntry "-5р еда" = .badFormat "-5р еда" ∧
    ∀ (e : String) (m k : Nat),
      (e.data.map pyLower).takeWhile isAmountChar ≠ [] →
      (matchTail ((e.data.map pyLower).dropWhile isAmountChar)).isSome = true →
      parseDec? (((e.data.map pyLower).takeWhile isAmountChar).map commaToDot) =
        some (m, k) →
      (m : Rat) / 10 ^ k ≤ 0 →
      parseEntry e = .badAmount e := by
  refine ⟨by decide, ?_⟩
  intro e m k htok hsome hdec hle
  obtain ⟨cat, hcat⟩ := Option.isSome_iff_exists.mp hsome
  have hm : m = 0 := by
    by_contra hm0
    have hpos : (0 : Rat) < 10 ^ k := by positivity
    have hmp : (0 : Rat) < (m : Rat) := by
      exact_mod_cast Nat.pos_of_ne_zero hm0
    have : (0 : Rat) < (m : Rat) / 10 ^ k := div_pos hmp hpos
    linarith
  subst hm
  simp [parseEntry, htok, hcat, hdec]

/-- Witness for C4 (amended): `"0 еда"` matches structurally, its value 0
is non-positive, and the outcome is the "bad amount" error. -/
theorem c4_nonpositive_amount_witness :
    parseEntry "0 еда" = .badAmount "0 еда" :=
  c4_nonpositive_amount.2 "0 еда" 0 0 (by decide) (by decide) (by decide)
    (by norm_num)

/-- C5 counterexample: the successfully parsed line `"45 Food"` stores
category `"food"`, not the case-preserved `"Food"` the user entered — the
parser lowercases the whole entry (line 246) before matching. -/
theorem c5_counterexample :
    parseEntry "45 Food" = .ok 4500 "food" ∧ ("food" : String) ≠ "Food" := by
  decide

/-- C5 amended: the stored category label is the whitespace-trimmed
remainder of the LOWERCASED entry (a trimmed suffix of the entry mapped
through `str.lower`, so starting and ending with non-whitespace), not the
case-preserved text; aggregation then groups by the exact stored string:
every summary pair is an exact category of the rows together with the sum
of the amounts carrying exactly that string. -/
theorem c5_category_from_lowercased :
    (∀ (e : String) (m : Nat) (c : String), parseEntry e = .ok m c →
      (∃ cat, cat <:+ e.data.map pyLower ∧ c.data = pyStrip cat) ∧
      (∀ x, c.data.head? = some x → isWs x = false) ∧
      (∀ x, c.data.getLast? = some x → isWs x = false)) ∧
    (∀ (rows : List (String × Nat)) (p : String × Nat), p ∈ aggregate rows →
      p.1 ∈ rows.map (fun r => r.1) ∧ p.2 = sumFor rows p.1) := by
  constructor
  · intro e m c h
    by_cases htok : (e.data.map pyLower).takeWhile isAmountChar = []
    · simp [parseEntry, htok] at h
    · cases hmt : matchTail ((e.data.map pyLower).dropWhile isAmountChar) with
      | none => simp [parseEntry, htok, hmt] at h
      | some cat =>
        cases hdec : parseDec?
            (((e.data.map pyLower).takeWhile isAmountChar).map commaToDot) with
        | none => simp [parseEntry, htok, hmt, hdec] at h
        | some mk =>
          by_cases hz : mk.1 = 0
          · simp [parseEntry, htok, hmt, hdec, hz] at h
          · have hc : c = (pyStrip cat).asString := by
              simp [parseEntry, htok, hmt, hdec, hz] at h
              exact h.2.symm
            have hcd : c.data = pyStrip cat := by subst hc; rfl
            refine ⟨⟨cat, ?_, hcd⟩, ?_, ?_⟩
            · exact (matchTail_suffix hmt).trans (List.dropWhile_suffix _)
            · intro x hx
              exact pyStrip_head_not_ws cat x (hcd ▸ hx)
            · intro x hx
              exact pyStrip_last_not_ws cat x (hcd ▸ hx)
  · intro rows p h
    exact mem_aggregate h

/-- Witness for C5 (amended): instantiated at `"45р Еда"`, whose stored
category is the lowercased `"еда"`, and at a two-row ledger where `"кофе"`
groups exactly. -/
theorem c5_category_from_lowercased_witness :
    ((∃ cat, cat <:+ "45р Еда".data.map pyLower ∧
        ("еда" : String).data = pyStrip cat) ∧
      (∀ x, ("еда" : String).data.head? = some x → isWs x = false) ∧
      (∀ x, ("еда" : String).data.getLast? = some x → isWs x = false)) ∧
    (("кофе", 250) : String × Nat).1 ∈
        [(("кофе", 100) : String × Nat), ("кофе", 150)].map (fun r => r.1) ∧
      (("кофе", 250) : String × Nat).2 =
        sumFor [(("кофе", 100) : String × Nat), ("кофе", 150)] "кофе" :=
  ⟨c5_category_from_lowercased.1 "45р Еда" 4500 "еда" (by decide),
   c5_category_from_lowercased.2 [("кофе", 100), ("кофе", 150)] ("кофе", 250)
     (by decide)⟩

/-! ## Claim theorems: the aggregator and report -/

/-- C3 counterexample: with rows first seen in the order `"b"`, `"a"` and
equal totals, the summary lists `"a"` before `"b"`: the grouping pass
sorts the category keys, so ties are not broken by first-seen order. -/
theorem c3_counterexample :
    aggregate [("b", 500), ("a", 500)] ≠ [("b", 500), ("a", 500)] ∧
    aggregate [("b", 500), ("a", 500)] = [("a", 500), ("b", 500)] ∧
    firstSeen ["b", "a"] = ["b", "a"] := by decide

/-- C3 amended: the executable summary meets the `sort_values` contract,
and EVERY admissible output of that contract — hence whatever tie order
the default (unstable) quicksort of line 90 or the SQL `ORDER BY` of the
month/all-time paths actually produces — is ordered by total weakly
descending and lists each distinct category exactly once with its exact
group total.  The order between equal totals is unspecified; in
particular it is not the first-seen category order, which the sorted
grouping keys have already destroyed (see the counterexample). -/
theorem c3_sorted_desc_unspecified_ties (rows : List (String × Nat)) :
    SortValuesDesc (groupSums rows) (aggregate rows) ∧
    ∀ out, SortValuesDesc (groupSums rows) out →
      out.Pairwise (fun p q => q.2 ≤ p.2) ∧
      (out.map (fun p => p.1)).Nodup ∧
      ∀ p ∈ out, p.1 ∈ rows.map (fun r => r.1) ∧ p.2 = sumFor rows p.1 := by
  refine ⟨sortDesc_sortValuesDesc _, ?_⟩
  intro out hout
  refine ⟨hout.2, ?_, ?_⟩
  · exact ((hout.1.map (fun p => p.1)).nodup_iff).mpr (nodup_keys_groupSums rows)
  · intro p hp
    exact mem_groupSums (hout.1.mem_iff.mp hp)

/-- Witness for C3 (amended) at the counterexample rows, taking the
executable summary as the admissible output of the sort contract. -/
theorem c3_sorted_desc_unspecified_ties_witness :
    (aggregate [("b", 500), ("a", 500)]).Pairwise (fun p q => q.2 ≤ p.2) ∧
    ((aggregate [("b", 500), ("a", 500)]).map (fun p => p.1)).Nodup :=
  ⟨((c3_sorted_desc_unspecified_ties [("b", 500), ("a", 500)]).2
      (aggregate [("b", 500), ("a", 500)])
      (c3_sorted_desc_unspecified_ties [("b", 500), ("a", 500)]).1).1,
   ((c3_sorted_desc_unspecified_ties [("b", 500), ("a", 500)]).2
      (aggregate [("b", 500), ("a", 500)])
      (c3_sorted_desc_unspecified_ties [("b", 500), ("a", 500)]).1).2.1⟩

/-- C8: re-summing the displayed per-category amounts of any summary gives
exactly the displayed grand total (amounts are exact hundredths after
`round(·, 2)`, so the two-decimal display is lossless), and the grand
total is the full-precision sum of every row amount — the grouping pass
partitions the rows, so nothing is rounded before aggregation. -/
theorem c8_display_roundtrip (rows : List (String × Nat)) :
    ((aggregate rows).map (fun p => displayVal p.2)).sum =
      displayVal (grandTotal rows) ∧
    grandTotal rows = (rows.map (fun r => r.2)).sum := by
  refine ⟨?_, grandTotal_eq_sum_rows rows⟩
  have h : (aggregate rows).map (fun p => displayVal p.2) =
      ((aggregate rows).map (fun p => p.2)).map (fun c => displayVal c) := by
    rw [List.map_map]
    rfl
  rw [h, sum_displayVal]
  rfl

/-- C9: a report request over a period with no matching rows produces the
explicit no-data outcome (text notice only, no chart), and whenever a
report with a chart is produced, the chart input is a non-empty
aggregation — the chart renderer is never invoked with an empty summary. -/
theorem c9_empty_period (rows : List (String × Nat)) :
    (rows = [] → generate_report_for_period rows = .noData) ∧
    (∀ s t ch, generate_report_for_period rows = .report s t ch → ch ≠ []) := by
  constructor
  · intro h
    simp [generate_report_for_period, h]
  · intro s t ch h
    by_cases hr : rows = []
    · simp [generate_report_for_period, hr] at h
    · simp [generate_report_for_period, hr] at h
      exact h.2.2 ▸ aggregate_ne_nil hr

/-- Witness for C9: the empty ledger yields the no-data outcome; a
one-row ledger yields a report whose chart input is non-empty. -/
theorem c9_empty_period_witness :
    generate_report_for_period [] = .noData ∧
    aggregate [(("еда", 4500) : String × Nat)] ≠ [] :=
  ⟨(c9_empty_period []).1 rfl,
   (c9_empty_period [("еда", 4500)]).2 (aggregate [("еда", 4500)])
     (grandTotal [("еда", 4500)]) (aggregate [("еда", 4500)]) (by decide)⟩
